import Mathlib

/-!
Verification of the haxmap concurrent hash map (sequential semantics).

The development shallowly embeds the Go sources:
  * the Harris-style lock-free linked list of key/value nodes
    (newListHead, element.next, element.search, element.inject,
    element.addBefore, element.remove, element.isDeleted), and
  * the map facade with its bucket index (Map.Set, Map.Get, Map.Del,
    Map.GetOrSet, Map.GetOrCompute, Map.GetAndDel, Map.CompareAndSwap,
    Map.Swap, Map.Grow, Map.Len, metadata.indexElement,
    metadata.addItemToIndex, Map.removeItemFromIndex, Map.grow,
    Map.fillIndexItems, resizeNeeded, roundUpPower2, log2).

The embedding gives each operation its single-threaded meaning: every
atomic compare-and-swap in the source succeeds (no interference), so the
retry loops run exactly one pass.  Machine words (uintptr, 64-bit) are
modelled as Nat with explicit reduction mod 2^64 where the Go code can
wrap (the item counter and the decrement by adding ^uintptr(0)).

List nodes are identified by an allocation id; the physical list is a
Lean list of nodes, and the bucket index stores node ids.  Pointer
equality in the source (index CAS, element identity) is id equality.
-/

namespace Haxmap

/-- strconv.IntSize: the word size in bits (64-bit platform). -/
def wordBits : Nat := 64

/-- 2^64, the modulus of uintptr arithmetic. -/
def UPTR : Nat := 2 ^ 64

/-- maxFillRate from the source: resize when fill rate exceeds 50%. -/
def maxFillRate : Nat := 50

/-- defaultSize from the source: default allocation size of a map. -/
def defaultSize : Nat := 8

/-- resizeNeeded: (count*100)/length > maxFillRate, uintptr arithmetic. -/
def resizeNeeded (length count : Nat) : Bool :=
  (count * 100) / length > maxFillRate

/-- roundUpPower2: the bit-twiddling round-up from the source.  The
decrement and increment wrap mod 2^64 exactly as uintptr does. -/
def roundUpPower2 (i : Nat) : Nat :=
  let i := (i + UPTR - 1) % UPTR
  let i := i ||| (i >>> 1)
  let i := i ||| (i >>> 2)
  let i := i ||| (i >>> 4)
  let i := i ||| (i >>> 8)
  let i := i ||| (i >>> 16)
  let i := i ||| (i >>> 32)
  (i + 1) % UPTR

/-- The loop of log2: p starts at 1 and doubles while p < i.  The loop
needs at most log2(i) + 1 passes, so fuel i is always enough; fuel keeps
the recursion structural. -/
def log2Aux : Nat → Nat → Nat → Nat → Nat
  | 0, _, _, n => n
  | fuel + 1, i, p, n => if p < i then log2Aux fuel i (p <<< 1) (n + 1) else n

/-- log2 from the source: binary logarithm rounded up. -/
def log2go (i : Nat) : Nat := log2Aux i i 1 0

/-- A list node (type element in list.go): hash, key, an atomically
replaceable value reference, next pointer and deletion flag.  The next
pointers are represented by adjacency in the map's node list; id is the
allocation identity standing for the node's address. -/
structure Elem (K V : Type) where
  id      : Nat
  keyHash : Nat
  key     : K
  value   : V
  deleted : Bool
deriving DecidableEq

/-- Map plus its (single, current) metadata block, flattened: listHead
and the nodes after it live in nodes (nodes[0] is the sentinel head);
keyshifts, index and count are the metadata fields; numItems, resizing
and hasher are the remaining Map fields.  nextId feeds fresh node ids. -/
structure Map (K V : Type) where
  nodes     : List (Elem K V)
  keyshifts : Nat
  index     : List (Option Nat)
  count     : Nat
  numItems  : Nat
  nextId    : Nat
  resizing  : Bool
  hasher    : K → Nat

variable {K V : Type} [DecidableEq K] [DecidableEq V] [Inhabited K] [Inhabited V]

/-- newListHead: the sentinel head node, keyHash 0, zero key and value. -/
def headElem : Elem K V := ⟨0, 0, default, default, false⟩

/-- Position of the node with a given id in the chain (length if absent). -/
def idxOfId (l : List (Elem K V)) (i : Nat) : Nat :=
  l.findIdx (fun e => e.id == i)

/-- element.next at chain position p: unlink the whole run of nodes
marked deleted that immediately follows position p (each CAS in the
source succeeds sequentially, so the run is removed in one pass), and
return the first live node after p, if any. -/
def nextAt (m : Map K V) (p : Nat) : Option (Elem K V) × Map K V :=
  let pre := m.nodes.take (p + 1)
  let suf := (m.nodes.drop (p + 1)).dropWhile (fun e => e.deleted)
  (suf.head?, { m with nodes := pre ++ suf })

/-- element.search as the walk over the chain suffix that starts at the
receiver.  Each iteration first computes right = curr.next() (physically
unlinking the marked run after curr), then compares the hash and key.
Returns (the visited nodes up to and including left, the matched node if
any, the remaining suffix); the caller reassembles the chain around the
result.  A node reached through next() is live, so after the first
element the walk drops marked nodes (the skipping flag); the first
element of the suffix is the receiver itself and is visited even when it
is marked deleted (the source never checks curr's own flag), so the
initial call passes skipping = false.  In the branches that stop at a
node, right = curr.next() has already unlinked the marked run after it,
hence the dropWhile on the returned suffix. -/
def cleanSearch (c : Nat) (key : K) :
    Bool → List (Elem K V) → List (Elem K V) × Option (Elem K V) × List (Elem K V)
  | _, [] => ([], none, [])
  | skipping, e :: rest =>
    if skipping ∧ e.deleted then cleanSearch c key true rest
    else if c < e.keyHash then ([], none, e :: rest.dropWhile (fun x => x.deleted))
    else if c = e.keyHash ∧ key = e.key then
      ([], some e, rest.dropWhile (fun x => x.deleted))
    else
      let r := cleanSearch c key true rest
      (e :: r.1, r.2.1, r.2.2)

/-- element.inject starting at chain position p with hash c: search; on a
match store the value into the found node and report created = false; on
no match splice a fresh node between left and right (the addBefore CAS,
which succeeds sequentially) and report created = true; when the search
ends with left = nil (only possible when c < the start node's hash)
return none and the caller retries from the list head. -/
def injectAt (m : Map K V) (p : Nat) (c : Nat) (key : K) (v : V) :
    Option (Nat × Bool) × Map K V :=
  let ctx := m.nodes.take p
  let sfx := m.nodes.drop p
  match cleanSearch c key false sfx with
  | (pre, some f, suf) =>
      (some (f.id, false),
        { m with nodes := ctx ++ pre ++ ({ f with value := v } :: suf) })
  | (pre, none, suf) =>
      if pre.isEmpty then (none, { m with nodes := ctx ++ suf })
      else
        (some (m.nextId, true),
          { m with
            nodes := ctx ++ pre ++ (⟨m.nextId, c, key, v, false⟩ :: suf),
            nextId := m.nextId + 1 })

/-- Dereference an index slot: the node in the chain carrying the stored
id (slots only ever hold ids of chain nodes, see the invariants below). -/
def slotDeref (m : Map K V) (s : Nat) : Option (Elem K V) :=
  match m.index.getD s none with
  | none => none
  | some i => m.nodes.find? (fun e => e.id == i)

/-- The backward scan of metadata.indexElement: while the slot is empty,
holds a node hashing above the key, or holds a deleted node, step to the
previous slot; at slot 0 return whatever is there. -/
def indexElemAux (m : Map K V) (h : Nat) : Nat → Option (Elem K V)
  | 0 => slotDeref m 0
  | s + 1 =>
    let it := slotDeref m (s + 1)
    match it with
    | none => indexElemAux m h s
    | some e => if h < e.keyHash ∨ e.deleted then indexElemAux m h s else it

/-- metadata.indexElement: start at slot hashedKey >> keyshifts. -/
def indexElement (m : Map K V) (h : Nat) : Option (Elem K V) :=
  indexElemAux m h (h >>> m.keyshifts)

/-- metadata.addItemToIndex for the node with the given hash and id: if
the slot is empty fill it (returning the bumped fill counter); if it
holds a node with a larger hash replace it; otherwise leave it.  The
CASes succeed sequentially so the loop runs one pass. -/
def addItemToIndex (m : Map K V) (c : Nat) (i : Nat) : Nat × Map K V :=
  let s := c >>> m.keyshifts
  match m.index.getD s none with
  | none =>
      (m.count + 1,
        { m with index := m.index.set s (some i), count := m.count + 1 })
  | some j =>
      match m.nodes.find? (fun e => e.id == j) with
      | some e =>
          if c < e.keyHash then (0, { m with index := m.index.set s (some i) })
          else (0, m)
      | none => (0, m)

/-- Map.removeItemFromIndex for a just-marked node (given by hash and
id): compute next = item.next() (which unlinks the marked run after the
node), drop it unless it lands in the same slot, CAS the slot from the
node to that replacement (success iff the slot held the node), decrement
the item counter (uintptr wrap), and decrement the fill counter when the
slot was swapped to nil. -/
def removeItemFromIndex (m : Map K V) (c : Nat) (i : Nat) : Map K V :=
  let p := idxOfId m.nodes i
  let r := nextAt m p
  let m1 := r.2
  let s := c >>> m1.keyshifts
  let nxId : Option Nat :=
    match r.1 with
    | some e => if e.keyHash >>> m1.keyshifts = s then some e.id else none
    | none => none
  let casOK := m1.index.getD s none == some i
  let m2 := if casOK then { m1 with index := m1.index.set s nxId } else m1
  let m3 := { m2 with numItems := (m2.numItems + UPTR - 1) % UPTR }
  if casOK ∧ nxId = none then { m3 with count := m3.count - 1 } else m3

/-- The walk of Map.fillIndexItems over the chain after the head: the
walk moves by element.next(), starting from listHead.next(), so every
marked node it passes is physically unlinked; each live node is
published into the fresh index when it is the first node or its slot
differs from the previous one. -/
def fillGo : Map K V → Bool → Nat → List (Elem K V) → List (Elem K V) × Map K V
  | m, _, _, [] => ([], m)
  | m, first, lastIndex, e :: rest =>
    if e.deleted then fillGo m first lastIndex rest
    else
      let s := e.keyHash >>> m.keyshifts
      let m1 :=
        if first ∨ s ≠ lastIndex then (addItemToIndex m e.keyHash e.id).2 else m
      let r := fillGo m1 false s rest
      (e :: r.1, r.2)

/-- Map.fillIndexItems: walk the list from listHead.next() and re-index. -/
def fillIndexItems (m : Map K V) : Map K V :=
  let r := fillGo m true 0 (m.nodes.drop 1)
  { r.2 with nodes := m.nodes.take 1 ++ r.1 }

/-- One iteration of the Map.grow loop: compute the new size (double on
0, else round up to a power of two), install fresh metadata with
keyshifts = word bits - log2(size) and an empty index, and re-project
the list into it. -/
def growOnce (m : Map K V) (newSize : Nat) : Map K V :=
  let ns := if newSize = 0 then m.index.length * 2 else roundUpPower2 newSize
  fillIndexItems
    { m with keyshifts := wordBits - log2go ns,
             index := List.replicate ns none, count := 0 }

/-- The Map.grow loop: rebuild, then if the fill rate still exceeds the
threshold double again, else clear the resizing flag.  The source loop
is unbounded; fuel bounds it here and Map.grow supplies enough fuel for
every terminating run (each pass doubles the size). -/
def growLoop : Nat → Map K V → Nat → Map K V
  | 0, m, _ => m
  | fuel + 1, m, newSize =>
    let m1 := growOnce m newSize
    if resizeNeeded m1.index.length m1.numItems then growLoop fuel m1 0
    else { m1 with resizing := false }

/-- Map.grow with fuel numItems + 66: the size at least doubles each
pass, so after that many passes the fill rate test cannot still fail. -/
def Map.grow (m : Map K V) (newSize : Nat) : Map K V :=
  growLoop (m.numItems + 66) m newSize

/-- Map.Grow: run grow only when the resizing CAS succeeds. -/
def Map.Grow (m : Map K V) (newSize : Nat) : Map K V :=
  if m.resizing = false then Map.grow { m with resizing := true } newSize else m

/-- Map.allocate: grow gated by the resizing CAS. -/
def Map.allocate (m : Map K V) (newSize : Nat) : Map K V :=
  if m.resizing = false then Map.grow { m with resizing := true } newSize else m

/-- New: a map with only the sentinel head, allocated at the requested
size (0 meaning absent) or the default size. -/
def Map.New (hasher : K → Nat) (size : Nat) : Map K V :=
  let m0 : Map K V := ⟨[headElem], wordBits, [], 0, 0, 1, false, hasher⟩
  if size ≠ 0 then m0.allocate size else m0.allocate defaultSize

/-- Map.SetHasher. -/
def Map.SetHasher (m : Map K V) (hs : K → Nat) : Map K V := { m with hasher := hs }

/-- Map.Len. -/
def Map.Len (m : Map K V) : Nat := m.numItems

/-- The starting position for writers: the index hint when it hashes at
or below h, else the list head (position 0). -/
def startPos (m : Map K V) (h : Nat) : Nat :=
  match indexElement m h with
  | some e => if h < e.keyHash then 0 else idxOfId m.nodes e.id
  | none => 0

/-- The chain suffix beginning at a node returned by indexElement. -/
def startSuffix (m : Map K V) (o : Option (Elem K V)) : List (Elem K V) :=
  match o with
  | none => []
  | some e => m.nodes.drop (idxOfId m.nodes e.id)

/-- The loop of Map.Get: follow raw nextPtr loads (no unlinking) while
the hash is at or below h; on the first key match return the stored
value and the negated deleted flag. -/
def getLoop (h : Nat) (key : K) : List (Elem K V) → V × Bool
  | [] => (default, false)
  | e :: rest =>
    if e.keyHash ≤ h then
      if e.key = key then (e.value, !e.deleted) else getLoop h key rest
    else (default, false)

/-- Map.Get: pure loads only; the map state is returned unchanged. -/
def Map.Get (m : Map K V) (key : K) : (V × Bool) × Map K V :=
  let h := m.hasher key
  ((getLoop h key (startSuffix m (indexElement m h))), m)

/-- The shared tail of Map.Set / Map.GetOrSet / Map.GetOrCompute after
the element is known absent: inject from the hint (or the head when the
hint is absent or hashes above h), retrying from the head when inject
yields nil (sequentially one retry always succeeds; the impossible
second failure returns id 0, created false), bump the item counter on
creation, publish into the index, and trigger growth on fill rate. -/
def setTail (m : Map K V) (hint : Option (Elem K V)) (h : Nat) (key : K) (v : V) :
    Map K V :=
  let p := match hint with
    | some e => if h < e.keyHash then 0 else idxOfId m.nodes e.id
    | none => 0
  let r1 := injectAt m p h key v
  let step : (Nat × Bool) × Map K V :=
    match r1.1 with
    | some ic => (ic, r1.2)
    | none =>
      match injectAt r1.2 0 h key v with
      | (some ic, m2) => (ic, m2)
      | (none, m2) => ((0, false), m2)
  let m2 := step.2
  let m3 :=
    if step.1.2 then { m2 with numItems := (m2.numItems + 1) % UPTR } else m2
  let r2 := addItemToIndex m3 h step.1.1
  if resizeNeeded m3.index.length r2.1 ∧ m3.resizing = false then
    Map.grow { r2.2 with resizing := true } 0
  else r2.2

/-- Map.Set. -/
def Map.Set (m : Map K V) (key : K) (v : V) : Map K V :=
  let h := m.hasher key
  setTail m (indexElement m h) h key v

/-- The inline lookup of Map.GetOrSet / Map.GetOrCompute: raw loads,
skipping nodes whose key matches but which are marked deleted. -/
def gosFind (h : Nat) (key : K) : List (Elem K V) → Option V
  | [] => none
  | e :: rest =>
    if e.keyHash ≤ h then
      if e.key = key ∧ e.deleted = false then some e.value else gosFind h key rest
    else none

/-- Map.GetOrSet. -/
def Map.GetOrSet (m : Map K V) (key : K) (v : V) : (V × Bool) × Map K V :=
  let h := m.hasher key
  let hint := indexElement m h
  match gosFind h key (startSuffix m hint) with
  | some actual => ((actual, true), m)
  | none => ((v, false), setTail m hint h key v)

/-- Map.GetOrCompute: the constructor runs only when the inline lookup
misses. -/
def Map.GetOrCompute (m : Map K V) (key : K) (valueFn : Unit → V) :
    (V × Bool) × Map K V :=
  let h := m.hasher key
  let hint := indexElement m h
  match gosFind h key (startSuffix m hint) with
  | some actual => ((actual, true), m)
  | none =>
    let value := valueFn ()
    ((value, false), setTail m hint h key value)

/-- The starting node of Map.Del / Map.GetAndDel: the index hint, or
listHead.next() when the hint is absent or hashes above h (the next call
mutates, unlinking the marked run after the head; the first live node
then sits at position 1). -/
def delStart (m : Map K V) (h : Nat) : Nat × Map K V :=
  match indexElement m h with
  | some e => if h < e.keyHash then (1, (nextAt m 0).2) else (idxOfId m.nodes e.id, m)
  | none => (1, (nextAt m 0).2)

/-- The walk of Map.Del while the node hashes at or below h: the walk
advances by element.next(), so after the first visited node marked nodes
are dropped (physically unlinked; the skipping flag); on a key match,
remove() (the CAS on the deleted flag, succeeding iff the node is not
yet marked) and on success fix the index and counters, then return
without further cleanup.  ctx accumulates the chain prefix already
walked; base carries the rest of the map state. -/
def delGo (h : Nat) (key : K) (base : Map K V) (ctx : List (Elem K V)) :
    Bool → List (Elem K V) → Map K V
  | _, [] => { base with nodes := ctx }
  | skipping, e :: rest =>
    if skipping ∧ e.deleted then delGo h key base ctx true rest
    else if e.keyHash ≤ h then
      if e.key = key then
        if e.deleted then { base with nodes := ctx ++ e :: rest }
        else
          removeItemFromIndex
            { base with nodes := ctx ++ ({ e with deleted := true } :: rest) }
            e.keyHash e.id
      else delGo h key base (ctx ++ [e]) true rest
    else { base with nodes := ctx ++ e :: rest }

/-- Map.Del on a single key (the size == 1 branch of the source; the
claims concern single-key deletion). -/
def Map.Del (m : Map K V) (key : K) : Map K V :=
  let h := m.hasher key
  let s := delStart m h
  delGo h key s.2 (s.2.nodes.take s.1) false (s.2.nodes.drop s.1)

/-- The walk of Map.GetAndDel: like Del but the stored value and the
negated deleted flag are read before the remove CAS. -/
def gadGo (h : Nat) (key : K) (base : Map K V) (ctx : List (Elem K V)) :
    Bool → List (Elem K V) → (V × Bool) × Map K V
  | _, [] => ((default, false), { base with nodes := ctx })
  | skipping, e :: rest =>
    if skipping ∧ e.deleted then gadGo h key base ctx true rest
    else if e.keyHash ≤ h then
      if e.key = key then
        if e.deleted then ((e.value, false), { base with nodes := ctx ++ e :: rest })
        else
          ((e.value, true),
            removeItemFromIndex
              { base with nodes := ctx ++ ({ e with deleted := true } :: rest) }
              e.keyHash e.id)
      else gadGo h key base (ctx ++ [e]) true rest
    else ((default, false), { base with nodes := ctx ++ e :: rest })

/-- Map.GetAndDel. -/
def Map.GetAndDel (m : Map K V) (key : K) : (V × Bool) × Map K V :=
  let h := m.hasher key
  let s := delStart m h
  gadGo h key s.2 (s.2.nodes.take s.1) false (s.2.nodes.drop s.1)

/-- Map.CompareAndSwap: search from the hint (or head); on a match
compare the loaded value with oldValue by structural equality and, when
equal, CAS the value reference (sequentially the CAS succeeds). -/
def Map.CompareAndSwap (m : Map K V) (key : K) (oldV newV : V) : Bool × Map K V :=
  let h := m.hasher key
  let p := startPos m h
  let ctx := m.nodes.take p
  let r := cleanSearch h key false (m.nodes.drop p)
  match r.2.1 with
  | some cur =>
    if cur.value = oldV then
      (true, { m with nodes := ctx ++ r.1 ++ ({ cur with value := newV } :: r.2.2) })
    else (false, { m with nodes := ctx ++ r.1 ++ (cur :: r.2.2) })
  | none => (false, { m with nodes := ctx ++ r.1 ++ r.2.2 })

/-- Map.Swap: search from the hint (or head); on a match atomically
exchange the value reference and return the old value with true, else
return the zero value with false. -/
def Map.Swap (m : Map K V) (key : K) (newV : V) : (V × Bool) × Map K V :=
  let h := m.hasher key
  let p := startPos m h
  let ctx := m.nodes.take p
  let r := cleanSearch h key false (m.nodes.drop p)
  match r.2.1 with
  | some cur =>
    ((cur.value, true),
      { m with nodes := ctx ++ r.1 ++ ({ cur with value := newV } :: r.2.2) })
  | none => ((default, false), { m with nodes := ctx ++ r.1 ++ r.2.2 })

/-- The nodes a search walk starting with skipping flag b keeps from the
stretch it traverses: marked nodes are physically dropped, except that
the very first node of a walk with b = false is visited (and kept) even
when marked. -/
def walkKeep (b : Bool) : List (Elem K V) → List (Elem K V)
  | [] => []
  | e :: r =>
    if b then (e :: r).filter (fun x => !x.deleted)
    else e :: r.filter (fun x => !x.deleted)

/-! ## Well-formedness of a map state

The predicates below state the sequential invariants of a reachable map
state; the functional theorems take them as hypotheses.  All are
decidable on a concrete state except the hasher bound HB. -/

/-- Number of live entries: non-deleted nodes after the sentinel. -/
def liveCount (m : Map K V) : Nat :=
  ((m.nodes.drop 1).filter (fun e => !e.deleted)).length

/-- A key is present: some non-deleted node after the sentinel bears it. -/
def HasLive (m : Map K V) (key : K) : Prop :=
  ∃ e ∈ m.nodes.drop 1, e.deleted = false ∧ e.key = key

instance (m : Map K V) (key : K) : Decidable (HasLive m key) := by
  unfold HasLive; infer_instance

/-- The chain starts with the sentinel: id 0, hash 0, the zero key. -/
def headOK (m : Map K V) : Prop :=
  0 < m.nodes.length ∧
    ∀ e ∈ m.nodes.take 1, e.id = 0 ∧ e.keyHash = 0 ∧ e.key = (default : K)

/-- Node ids are distinct and below the allocation counter. -/
def idsOK (m : Map K V) : Prop :=
  (m.nodes.map (fun e => e.id)).Nodup ∧ ∀ e ∈ m.nodes, e.id < m.nextId

/-- Every entry's stored hash is the hash of its key. -/
def hashOK (m : Map K V) : Prop :=
  ∀ e ∈ m.nodes.drop 1, e.keyHash = m.hasher e.key

/-- The chain is sorted by hash (non-strictly: equal hashes coexist). -/
def sortedOK (m : Map K V) : Prop :=
  m.nodes.Pairwise (fun a b => a.keyHash ≤ b.keyHash)

/-- At most one non-deleted entry per key. -/
def uniqOK (m : Map K V) : Prop :=
  (m.nodes.drop 1).Pairwise
    (fun a b => ¬(a.deleted = false ∧ b.deleted = false ∧ a.key = b.key))

/-- Index geometry: the length is the power of two fixed by keyshifts. -/
def geomOK (m : Map K V) : Prop :=
  m.keyshifts ≤ wordBits ∧ m.index.length = 2 ^ (wordBits - m.keyshifts)

/-- Every filled slot holds the id of a chain node of that slot which is
live, or the sentinel (the sentinel can be indexed, and even marked, in
the zero-hash corner). -/
def slotsOK (m : Map K V) : Prop :=
  ∀ s < m.index.length, ∀ i, m.index.getD s none = some i →
    ∃ e ∈ m.nodes, e.id = i ∧ e.keyHash >>> m.keyshifts = s ∧
      (e.deleted = false ∨ e.id = 0)

/-- No live entry of a slot lies strictly before the node the slot holds
(the slot hint never skips over a live entry it serves). -/
def slotOrderOK (m : Map K V) : Prop :=
  ∀ s < m.index.length, ∀ i, m.index.getD s none = some i →
    ∀ f ∈ m.nodes.takeWhile (fun e => !(e.id == i)),
      ¬(f.id ≠ 0 ∧ f.deleted = false ∧ f.keyHash >>> m.keyshifts = s)

/-- The sentinel id appears in the index only when the zero key actually
hashes to 0 (only such executions ever index the sentinel). -/
def headIdxOK (m : Map K V) : Prop :=
  (some 0) ∈ m.index → m.hasher (default : K) = 0

/-- The conjunction of the structural invariants. -/
def WF (m : Map K V) : Prop :=
  headOK m ∧ idsOK m ∧ hashOK m ∧ sortedOK m ∧ uniqOK m ∧ geomOK m ∧
    slotsOK m ∧ slotOrderOK m ∧ headIdxOK m

instance (m : Map K V) : Decidable (WF m) := by
  unfold WF headOK idsOK hashOK sortedOK uniqOK geomOK slotsOK slotOrderOK headIdxOK
  infer_instance

/-- The hasher produces machine words (true of every Go hasher). -/
def HB (m : Map K V) : Prop := ∀ k, m.hasher k < UPTR

/-- The key does not collide with the sentinel: its hash is nonzero or
it differs from the zero key.  The sentinel-collision executions are the
counterexamples above. -/
def NotSent (m : Map K V) (key : K) : Prop :=
  m.hasher key ≠ 0 ∨ key ≠ (default : K)

/-- The item counter agrees with the number of live entries and has room
to grow (no wrap pending). -/
def WFnum (m : Map K V) : Prop :=
  m.numItems = liveCount m ∧ m.numItems + 1 < UPTR

instance (m : Map K V) : Decidable (WFnum m) := by
  unfold WFnum; infer_instance

/-! ## Concrete executions used as counterexamples

The states below are reached by running the embedded operations from a
freshly constructed map; SetHasher is applied at construction time, as
the tests of the repository do.  hashZero is the pathological constant
hasher the spec explicitly tolerates; hashSelf hashes a Nat key to
itself (a legitimate user hasher). -/

def hashZero : Nat → Nat := fun _ => 0

def hashSelf : Nat → Nat := fun n => n

/-- Fresh map with the constant-zero hasher. -/
def mz0 : Map Nat Nat := Map.New hashZero 8

/-- Set(0, 99) with the constant-zero hasher: hash 0 and the zero key
collide with the sentinel head, so inject matches the head and stores
the value into it; no node is created and the counter stays 0. -/
def mz1 : Map Nat Nat := mz0.Set 0 99

/-- Del(0): the head is found through the index, marked deleted, and the
uintptr counter wraps from 0 to 2^64 - 1. -/
def mz2 : Map Nat Nat := mz1.Del 0

/-- Set(0, 77) again: inject still matches the (now marked) head and
overwrites its value; the head stays marked, so Get reports absent. -/
def mz3 : Map Nat Nat := mz2.Set 0 77

/-- Two keys with hashes 5 and 6 under the identity hasher. -/
def ms1 : Map Nat Nat := ((Map.New hashSelf 8).Set 5 50).Set 6 60

/-- Del(6): node (6, 60) is marked but stays physically linked (its
index slot still holds node (5, 50), so the slot CAS fails). -/
def ms2 : Map Nat Nat := ms1.Del 6

/-- Two equal-hash keys inserted in the order 2 then 1: the list keeps
them in insertion order, not key order. -/
def mzo : Map Nat Nat := ((Map.New hashZero 8).Set 2 20).Set 1 10

/-- Grow(2) on a fresh map of index length 8. -/
def mg0 : Map Nat Nat := Map.New hashSelf 8

/-- The result of mg0.Grow 2: the index shrinks to 2 slots. -/
def mg1 : Map Nat Nat := mg0.Grow 2

/-! ## Counterexample theorems -/

/-- C1, counterexample.  With the constant-zero hasher the zero key is
absent in mz2 (Get reports false), yet Set(0, 77) neither creates a node
nor bumps the counter (it stores into the marked sentinel), and the
subsequent Get returns (77, false), not (77, true). -/
theorem C1_cex :
    (Map.Get mz2 0).1.2 = false ∧ (Map.Get mz3 0).1 = (77, false) ∧
      mz3.Len = mz2.Len := by decide

/-- C2, counterexample.  Key 0 is present in mz1 (Get returns (99, true))
and Len is 0; after Del(0) the uintptr counter wraps to 2^64 - 1 instead
of decreasing by exactly 1. -/
theorem C2_cex :
    (Map.Get mz1 0).1 = (99, true) ∧ mz1.Len = 0 ∧ mz2.Len = UPTR - 1 := by
  decide

/-- C3, counterexample.  In ms2 every node with key 6 is marked deleted,
so key 6 is absent, yet Get(6) returns the deleted node's stored value
60 with false, not the zero value. -/
theorem C3_cex :
    (∀ e ∈ ms2.nodes, e.key = 6 → e.deleted = true) ∧
      (Map.Get ms2 6).1 = (60, false) := by decide

/-- C4, counterexample.  Key 0 is absent in mz2 (Get reports false), yet
CompareAndSwap(0, 99, 11) matches the marked sentinel, compares equal
and swaps, returning true instead of false. -/
theorem C4_cex :
    (Map.Get mz2 0).1.2 = false ∧ (mz2.CompareAndSwap 0 99 11).1 = true := by
  decide

/-- C5, counterexample.  After the operation sequence building mzo (two
Sets under a constant hasher) the two entries carry the equal hash 0 but
appear in insertion order (key 2 before key 1): the list is not sorted
strictly ascending by (hash, key). -/
theorem C5_cex :
    ¬ (mzo.nodes.drop 1).Pairwise
        (fun a b => a.keyHash < b.keyHash ∨
          (a.keyHash = b.keyHash ∧ a.key < b.key)) := by decide

/-- C6, counterexample.  mg0 has index length 8 and no resize in
progress; Grow(2) installs an index of length roundUpPower2 2 = 2, not
max(roundUpPower2 2, 2 x 8) = 16. -/
theorem C6_cex :
    mg0.resizing = false ∧ mg0.index.length = 8 ∧
      mg1.index.length = 2 ∧
      mg1.index.length ≠ max (roundUpPower2 2) (2 * mg0.index.length) := by
  decide

/-- C7, counterexample.  Key 0 is absent in mz2, yet GetOrSet(0, 55)
returns (55, false) while leaving Len unchanged instead of incrementing
it by 1 (the stored value again lands in the marked sentinel). -/
theorem C7_cex :
    (Map.Get mz2 0).1.2 = false ∧ (mz2.GetOrSet 0 55).1 = (55, false) ∧
      ((mz2.GetOrSet 0 55).2).Len = mz2.Len := by decide

/-- C8, counterexample.  Key 0 is absent in mz2, yet Swap(0, 123)
returns (99, true) — the prior value of the marked sentinel — instead of
the zero value with false. -/
theorem C8_cex :
    (Map.Get mz2 0).1.2 = false ∧ (mz2.Swap 0 123).1 = (99, true) := by
  decide

/-- C9, counterexample.  Under a user hasher returning constant 0, Set
of the zero-valued key updates the sentinel head in place: the chain of
mz1 is still the single head node (id 0, hash 0) but now carrying value
99, so the head is used as the entry for that key. -/
theorem C9_cex :
    mz0.nodes = [⟨0, 0, 0, 0, false⟩] ∧ mz1.nodes = [⟨0, 0, 0, 99, false⟩] := by
  decide

/-! ## C10: Get is observationally pure -/

/-- C10.  Map.Get performs only atomic loads (metadata load, index slot
loads and raw nextPtr loads — never the unlinking next()), so the map
state it returns is the input state unchanged: every node, index slot,
counter and flag is identical. -/
theorem C10_get_pure (m : Map K V) (key : K) : (Map.Get m key).2 = m := rfl

/-! ## Lemmas about dropWhile and the search walk -/

theorem mem_dropWhile_not {α : Type} (p : α → Bool) (l : List α) (e : α)
    (he : e ∈ l) (hp : p e = false) : e ∈ l.dropWhile p := by
  induction l with
  | nil => cases he
  | cons x r ih =>
    rw [List.dropWhile_cons]
    by_cases hx : p x
    · rcases List.mem_cons.mp he with rfl | hr
      · rw [hp] at hx; cases hx
      · simpa [hx] using ih hr
    · simp only [Bool.not_eq_true] at hx
      simpa [hx] using he

theorem head_dropWhile_not {α : Type} (p : α → Bool) (l : List α) (x : α)
    (r : List α) (hx : l.dropWhile p = x :: r) : p x = false := by
  induction l with
  | nil => cases hx
  | cons y t ih =>
    rw [List.dropWhile_cons] at hx
    by_cases hy : p y
    · exact ih (by simpa [hy] using hx)
    · simp only [hy, if_neg] at hx
      cases hx
      simpa using hy

/-- Every node the search walk keeps, matches or returns comes from the
walked stretch, in order. -/
theorem cs_sublist (c : Nat) (key : K) (b : Bool) (l : List (Elem K V)) :
    ((cleanSearch c key b l).1 ++ (cleanSearch c key b l).2.1.toList ++
      (cleanSearch c key b l).2.2).Sublist l := by
  induction l generalizing b with
  | nil => simp [cleanSearch]
  | cons e rest ih =>
    simp only [cleanSearch]
    by_cases h1 : (b : Prop) ∧ e.deleted
    · simpa [h1] using (ih true).cons e
    · simp only [if_neg h1]
      by_cases h2 : c < e.keyHash
      · simpa [h2] using (List.dropWhile_sublist (l := rest)
          (fun x => x.deleted)).cons₂ e
      · simp only [if_neg h2]
        by_cases h3 : c = e.keyHash ∧ key = e.key
        · simpa [h3] using (List.dropWhile_sublist (l := rest)
            (fun x => x.deleted)).cons₂ e
        · simpa [h3] using (ih true).cons₂ e

/-- The search walk physically drops only marked nodes: every live node
of the walked stretch survives in the visited prefix, the match or the
returned suffix. -/
theorem cs_live_mem (c : Nat) (key : K) (b : Bool) (l : List (Elem K V))
    (e : Elem K V) (he : e ∈ l) (hlive : e.deleted = false) :
    e ∈ (cleanSearch c key b l).1 ∨ (cleanSearch c key b l).2.1 = some e ∨
      e ∈ (cleanSearch c key b l).2.2 := by
  induction l generalizing b with
  | nil => cases he
  | cons x rest ih =>
    simp only [cleanSearch]
    by_cases h1 : (b : Prop) ∧ x.deleted
    · rcases List.mem_cons.mp he with rfl | hr
      · rw [hlive] at h1; exact absurd h1.2 (by simp)
      · simpa [h1] using ih true hr
    · simp only [if_neg h1]
      by_cases h2 : c < x.keyHash
      · rcases List.mem_cons.mp he with rfl | hr
        · simp [h2]
        · simp only [if_pos h2]
          refine Or.inr (Or.inr ?_)
          exact List.mem_cons_of_mem x
            (mem_dropWhile_not _ rest e hr (by simpa using hlive))
      · simp only [if_neg h2]
        by_cases h3 : c = x.keyHash ∧ key = x.key
        · rcases List.mem_cons.mp he with rfl | hr
          · simp [h3]
          · simp only [if_pos h3]
            exact Or.inr (Or.inr
              (mem_dropWhile_not _ rest e hr (by simpa using hlive)))
        · rcases List.mem_cons.mp he with rfl | hr
          · simp [h3]
          · have := ih true hr
            simp only [if_neg h3, List.mem_cons]
            tauto

/-- Every node the walk visits and passes hashes at or below c and is
not a (c, key) match. -/
theorem cs_pre_facts (c : Nat) (key : K) (b : Bool) (l : List (Elem K V))
    (f : Elem K V) (hf : f ∈ (cleanSearch c key b l).1) :
    f.keyHash ≤ c ∧ ¬(c = f.keyHash ∧ key = f.key) := by
  induction l generalizing b with
  | nil => simp [cleanSearch] at hf
  | cons x rest ih =>
    simp only [cleanSearch] at hf
    by_cases h1 : (b : Prop) ∧ x.deleted
    · exact ih true (by simpa [h1] using hf)
    · simp only [if_neg h1] at hf
      by_cases h2 : c < x.keyHash
      · simp [h2] at hf
      · simp only [if_neg h2] at hf
        by_cases h3 : c = x.keyHash ∧ key = x.key
        · simp [h3] at hf
        · simp only [if_neg h3] at hf
          rcases List.mem_cons.mp hf with rfl | hr
          · exact ⟨Nat.le_of_not_lt h2, h3⟩
          · exact ih true hr

/-- A matched node carries exactly the searched hash and key. -/
theorem cs_found_key (c : Nat) (key : K) (b : Bool) (l : List (Elem K V))
    (f : Elem K V) (hf : (cleanSearch c key b l).2.1 = some f) :
    c = f.keyHash ∧ key = f.key := by
  induction l generalizing b with
  | nil => simp [cleanSearch] at hf
  | cons x rest ih =>
    simp only [cleanSearch] at hf
    by_cases h1 : (b : Prop) ∧ x.deleted
    · exact ih true (by simpa [h1] using hf)
    · simp only [if_neg h1] at hf
      by_cases h2 : c < x.keyHash
      · simp [h2] at hf
      · simp only [if_neg h2] at hf
        by_cases h3 : c = x.keyHash ∧ key = x.key
        · simp only [if_pos h3] at hf
          cases hf
          exact h3
        · exact ih true (by simpa [h3] using hf)

/-- A matched node is live, unless it is the very first node of a walk
started with skipping = false (the source never checks the receiver's
own deleted flag). -/
theorem cs_found_live (c : Nat) (key : K) (b : Bool) (l : List (Elem K V))
    (f : Elem K V) (hf : (cleanSearch c key b l).2.1 = some f) :
    f.deleted = false ∨ (b = false ∧ l.head? = some f) := by
  induction l generalizing b with
  | nil => simp [cleanSearch] at hf
  | cons x rest ih =>
    simp only [cleanSearch] at hf
    by_cases h1 : (b : Prop) ∧ x.deleted
    · rcases ih true (by simpa [h1] using hf) with hl | ⟨hb, _⟩
      · exact Or.inl hl
      · cases hb
    · simp only [if_neg h1] at hf
      by_cases h2 : c < x.keyHash
      · simp [h2] at hf
      · simp only [if_neg h2] at hf
        by_cases h3 : c = x.keyHash ∧ key = x.key
        · simp only [if_pos h3] at hf
          cases hf
          by_cases hb : b
          · subst hb
            left
            by_cases hd : f.deleted
            · exact absurd ⟨rfl, hd⟩ h1
            · simpa using hd
          · exact Or.inr ⟨by simpa using hb, rfl⟩
        · rcases ih true (by simpa [h3] using hf) with hl | ⟨hb, _⟩
          · exact Or.inl hl
          · cases hb

/-- When the walk starts in skipping mode every visited node is live. -/
theorem cs_pre_live_true (c : Nat) (key : K) (l : List (Elem K V))
    (f : Elem K V) (hf : f ∈ (cleanSearch c key true l).1) :
    f.deleted = false := by
  induction l with
  | nil => simp [cleanSearch] at hf
  | cons x rest ih =>
    simp only [cleanSearch] at hf
    by_cases h1 : x.deleted
    · exact ih (by simpa [h1] using hf)
    · simp only [Bool.not_eq_true] at h1
      by_cases h2 : c < x.keyHash
      · simp [h1, h2] at hf
      · by_cases h3 : c = x.keyHash ∧ key = x.key
        · simp [h1, h2, h3] at hf
        · simp only [h1, h2, h3, if_neg, and_false, if_false] at hf
          rcases List.mem_cons.mp (by simpa [h1] using hf) with rfl | hr
          · exact h1
          · exact ih hr

/-- On a failed match the returned suffix is empty or starts at the
first node hashing above c. -/
theorem cs_none_suf (c : Nat) (key : K) (b : Bool) (l : List (Elem K V))
    (hn : (cleanSearch c key b l).2.1 = none) :
    (cleanSearch c key b l).2.2 = [] ∨
      ∃ x r, (cleanSearch c key b l).2.2 = x :: r ∧ c < x.keyHash := by
  induction l generalizing b with
  | nil => simp [cleanSearch]
  | cons x rest ih =>
    simp only [cleanSearch] at hn ⊢
    by_cases h1 : (b : Prop) ∧ x.deleted
    · simpa [h1] using ih true (by simpa [h1] using hn)
    · simp only [if_neg h1] at hn ⊢
      by_cases h2 : c < x.keyHash
      · simp only [if_pos h2]
        exact Or.inr ⟨x, rest.dropWhile (fun x => x.deleted), rfl, h2⟩
      · simp only [if_neg h2] at hn ⊢
        by_cases h3 : c = x.keyHash ∧ key = x.key
        · simp [h3] at hn
        · simpa [h3] using ih true (by simpa [h3] using hn)

theorem walkKeep_true (l : List (Elem K V)) :
    walkKeep true l = l.filter (fun x => !x.deleted) := by
  cases l <;> simp [walkKeep]

theorem walkKeep_cons_visit (b : Bool) (f : Elem K V) (P : List (Elem K V))
    (h : ¬((b : Prop) ∧ f.deleted)) :
    walkKeep b (f :: P) = f :: walkKeep true P := by
  rw [walkKeep_true]
  cases b with
  | false => simp [walkKeep]
  | true =>
    have hd : f.deleted = false := by
      by_cases hd : f.deleted
      · exact absurd ⟨rfl, hd⟩ h
      · simpa using hd
    simp [walkKeep, List.filter_cons, hd]

/-- The completeness corridor for the search walk: if the stretch before
a live (c, key) node n contains no stopping node (all hash at or below
c) and no visitable match, the walk matches exactly n, keeps the visited
nodes (dropping marked ones) and returns the cleaned suffix after n. -/
theorem cs_corridor (c : Nat) (key : K) (b : Bool) (P B : List (Elem K V))
    (n : Elem K V)
    (hP : ∀ f ∈ P, f.keyHash ≤ c ∧
      (f.deleted = false → ¬(c = f.keyHash ∧ key = f.key)))
    (hfirst : b = false → ∀ f ∈ P.take 1, ¬(c = f.keyHash ∧ key = f.key))
    (hn1 : n.keyHash = c) (hn2 : n.key = key) (hn3 : n.deleted = false) :
    cleanSearch c key b (P ++ n :: B) =
      (walkKeep b P, some n, B.dropWhile (fun x => x.deleted)) := by
  induction P generalizing b with
  | nil =>
    simp only [List.nil_append, cleanSearch]
    rw [if_neg (by simp [hn3]), if_neg (by omega), if_pos ⟨hn1.symm, hn2.symm⟩]
    rfl
  | cons f P' ih =>
    simp only [List.cons_append, cleanSearch, List.append_eq]
    by_cases h1 : (b : Prop) ∧ f.deleted
    · rw [if_pos h1, ih true (fun g hg => hP g (List.mem_cons_of_mem f hg))
        (by intro hb; cases hb)]
      have hb : b = true := by
        rcases h1 with ⟨hb, _⟩
        exact hb
      subst hb
      rw [walkKeep_true, walkKeep_true, List.filter_cons,
        if_neg (by simp [h1.2])]
    · have hf := hP f (List.mem_cons_self f P')
      have hnm : ¬(c = f.keyHash ∧ key = f.key) := by
        by_cases hd : f.deleted
        · have hb : b = false := by
            cases b with
            | false => rfl
            | true => exact absurd ⟨rfl, hd⟩ h1
          exact hfirst hb f (by simp)
        · exact hf.2 (by simpa using hd)
      rw [if_neg h1, if_neg (by omega), if_neg hnm,
        ih true (fun g hg => hP g (List.mem_cons_of_mem f hg))
          (by intro hb; cases hb),
        walkKeep_cons_visit b f P' h1]

/-- The Get corridor: walking raw pointers, the first key match is the
targeted node when the stretch before it has no key match and no node
hashing above h. -/
theorem getLoop_corridor (h : Nat) (key : K) (P B : List (Elem K V))
    (n : Elem K V) (hP : ∀ f ∈ P, f.keyHash ≤ h ∧ f.key ≠ key)
    (hn1 : n.keyHash ≤ h) (hn2 : n.key = key) :
    getLoop h key (P ++ n :: B) = (n.value, !n.deleted) := by
  induction P with
  | nil => simp [getLoop, hn1, hn2]
  | cons f P' ih =>
    have hf := hP f (List.mem_cons_self f P')
    simp only [List.cons_append, getLoop, if_pos hf.1, if_neg hf.2]
    exact ih fun g hg => hP g (List.mem_cons_of_mem f hg)

/-- Soundness of Get: a true answer exhibits a live node of that key in
the walked suffix. -/
theorem getLoop_sound (h : Nat) (key : K) (l : List (Elem K V))
    (ht : (getLoop h key l).2 = true) :
    ∃ e ∈ l, e.key = key ∧ e.deleted = false := by
  induction l with
  | nil => simp [getLoop] at ht
  | cons f r ih =>
    simp only [getLoop] at ht
    by_cases h1 : f.keyHash ≤ h
    · rw [if_pos h1] at ht
      by_cases h2 : f.key = key
      · rw [if_pos h2] at ht
        simp only [Bool.not_eq_true'] at ht
        exact ⟨f, List.mem_cons_self f r, h2, ht⟩
      · rcases ih (by simpa [h2] using ht) with ⟨e, he, hk, hd⟩
        exact ⟨e, List.mem_cons_of_mem f he, hk, hd⟩
    · simp [h1] at ht

/-- The inline-lookup corridor of GetOrSet / GetOrCompute: marked key
matches are skipped, so the first live key match is found. -/
theorem gosFind_corridor (h : Nat) (key : K) (P B : List (Elem K V))
    (n : Elem K V)
    (hP : ∀ f ∈ P, f.keyHash ≤ h ∧ ¬(f.key = key ∧ f.deleted = false))
    (hn1 : n.keyHash ≤ h) (hn2 : n.key = key) (hn3 : n.deleted = false) :
    gosFind h key (P ++ n :: B) = some n.value := by
  induction P with
  | nil => simp [gosFind, hn1, hn2, hn3]
  | cons f P' ih =>
    have hf := hP f (List.mem_cons_self f P')
    simp only [List.cons_append, gosFind, if_pos hf.1, if_neg hf.2]
    exact ih fun g hg => hP g (List.mem_cons_of_mem f hg)

/-- Soundness of the inline lookup: a hit exhibits a live node. -/
theorem gosFind_sound (h : Nat) (key : K) (l : List (Elem K V)) (v : V)
    (ht : gosFind h key l = some v) :
    ∃ e ∈ l, e.key = key ∧ e.deleted = false ∧ e.value = v := by
  induction l with
  | nil => simp [gosFind] at ht
  | cons f r ih =>
    simp only [gosFind] at ht
    by_cases h1 : f.keyHash ≤ h
    · rw [if_pos h1] at ht
      by_cases h2 : f.key = key ∧ f.deleted = false
      · rw [if_pos h2] at ht
        cases ht
        exact ⟨f, List.mem_cons_self f r, h2.1, h2.2, rfl⟩
      · rcases ih (by simpa [h2] using ht) with ⟨e, he, hk, hd, hv⟩
        exact ⟨e, List.mem_cons_of_mem f he, hk, hd, hv⟩
    · simp [h1] at ht

/-- The Del corridor: the walk reaches the live (key) node n, marks it
and hands it to removeItemFromIndex, with the visited stretch (marked
nodes dropped) reassembled before it. -/
theorem delGo_corridor (h : Nat) (key : K) (base : Map K V)
    (ctx P B : List (Elem K V)) (b : Bool) (n : Elem K V)
    (hPhash : ∀ f ∈ P, f.keyHash ≤ h)
    (hPlive : ∀ f ∈ P, f.deleted = false → f.key ≠ key)
    (hfirst : b = false → ∀ f ∈ P.take 1, f.key ≠ key)
    (hn1 : n.keyHash ≤ h) (hn2 : n.key = key) (hn3 : n.deleted = false) :
    delGo h key base ctx b (P ++ n :: B) =
      removeItemFromIndex
        { base with nodes := ctx ++ walkKeep b P ++ ({ n with deleted := true } :: B) }
        n.keyHash n.id := by
  induction P generalizing b ctx with
  | nil =>
    simp only [List.nil_append, delGo]
    rw [if_neg (by simp [hn3]), if_pos hn1, if_pos hn2, if_neg (by simp [hn3])]
    simp [walkKeep]
  | cons f P' ih =>
    simp only [List.cons_append, delGo, List.append_eq]
    by_cases h1 : (b : Prop) ∧ f.deleted
    · rw [if_pos h1,
        ih ctx true (fun g hg => hPhash g (List.mem_cons_of_mem f hg))
          (fun g hg => hPlive g (List.mem_cons_of_mem f hg))
          (by intro hb; cases hb)]
      have hb : b = true := h1.1
      subst hb
      rw [walkKeep_true, walkKeep_true, List.filter_cons, if_neg (by simp [h1.2])]
    · have hkf : f.key ≠ key := by
        by_cases hd : f.deleted
        · have hb : b = false := by
            cases b with
            | false => rfl
            | true => exact absurd ⟨rfl, hd⟩ h1
          exact hfirst hb f (by simp)
        · exact hPlive f (List.mem_cons_self f P') (by simpa using hd)
      rw [if_neg h1, if_pos (hPhash f (List.mem_cons_self f P')), if_neg hkf,
        ih (ctx ++ [f]) true (fun g hg => hPhash g (List.mem_cons_of_mem f hg))
          (fun g hg => hPlive g (List.mem_cons_of_mem f hg))
          (by intro hb; cases hb),
        walkKeep_cons_visit b f P' h1]
      simp

/-- When the walked stretch holds no live node of the key, Del leaves
the counters and index untouched: it only reassembles the chain (having
dropped marked nodes along the way), never reaching the remove CAS. -/
theorem delGo_noLive (h : Nat) (key : K) (base : Map K V)
    (ctx : List (Elem K V)) (b : Bool) (l : List (Elem K V))
    (hno : ∀ e ∈ l, e.deleted = false → e.key ≠ key) :
    ∃ nodes2, delGo h key base ctx b l = { base with nodes := nodes2 } ∧
      nodes2.Sublist (ctx ++ l) ∧
      (∀ e ∈ ctx ++ l, e.deleted = false → e ∈ nodes2) := by
  induction l generalizing b ctx with
  | nil =>
    refine ⟨ctx, by simp [delGo], by simp, ?_⟩
    intro e he _
    simpa using he
  | cons f r ih =>
    simp only [delGo]
    by_cases h1 : (b : Prop) ∧ f.deleted
    · rcases ih ctx true (fun g hg => hno g (List.mem_cons_of_mem f hg)) with
        ⟨n2, heq, hsub, hmem⟩
      rw [if_pos h1]
      refine ⟨n2, heq, hsub.trans ?_, ?_⟩
      · exact List.Sublist.append_left (List.sublist_cons_self f r) ctx
      · intro e he hd
        rcases List.mem_append.mp he with hc | hr
        · exact hmem e (List.mem_append.mpr (Or.inl hc)) hd
        · rcases List.mem_cons.mp hr with rfl | hr2
          · rw [hd] at h1; exact absurd h1.2 (by simp)
          · exact hmem e (List.mem_append.mpr (Or.inr hr2)) hd
    · rw [if_neg h1]
      by_cases h2 : f.keyHash ≤ h
      · rw [if_pos h2]
        by_cases h3 : f.key = key
        · rw [if_pos h3]
          have hd : f.deleted = true := by
            by_cases hd : f.deleted
            · exact hd
            · exact absurd h3 (hno f (List.mem_cons_self f r) (by simpa using hd))
          rw [if_pos hd]
          exact ⟨ctx ++ f :: r, rfl, by simp, fun e he _ => he⟩
        · rw [if_neg h3]
          rcases ih (ctx ++ [f]) true
            (fun g hg => hno g (List.mem_cons_of_mem f hg)) with
            ⟨n2, heq, hsub, hmem⟩
          refine ⟨n2, heq, hsub.trans (by simp), ?_⟩
          intro e he hd
          rcases List.mem_append.mp he with hc | hr
          · exact hmem e (by simp [hc]) hd
          · rcases List.mem_cons.mp hr with rfl | hr2
            · exact hmem e (by simp) hd
            · exact hmem e (by simp [hr2]) hd
      · rw [if_neg h2]
        exact ⟨ctx ++ f :: r, rfl, by simp, fun e he _ => he⟩

/-- GetAndDel drives the same walk as Del: the returned states agree. -/
theorem gadGo_state (h : Nat) (key : K) (base : Map K V)
    (ctx : List (Elem K V)) (b : Bool) (l : List (Elem K V)) :
    (gadGo h key base ctx b l).2 = delGo h key base ctx b l := by
  induction l generalizing b ctx with
  | nil => simp [gadGo, delGo]
  | cons f r ih =>
    simp only [gadGo, delGo]
    by_cases h1 : (b : Prop) ∧ f.deleted
    · rw [if_pos h1, if_pos h1, ih ctx true]
    · rw [if_neg h1, if_neg h1]
      by_cases h2 : f.keyHash ≤ h
      · rw [if_pos h2, if_pos h2]
        by_cases h3 : f.key = key
        · rw [if_pos h3, if_pos h3]
          by_cases h4 : f.deleted
          · rw [if_pos h4, if_pos h4]
          · rw [if_neg h4, if_neg h4]
        · rw [if_neg h3, if_neg h3, ih (ctx ++ [f]) true]
      · rw [if_neg h2, if_neg h2]

/-! ## Splitting the chain at a node id -/

theorem findIdx_app {α : Type} (p : α → Bool) (A B : List α) (e : α)
    (hA : ∀ a ∈ A, p a = false) (he : p e = true) :
    (A ++ e :: B).findIdx p = A.length := by
  induction A with
  | nil => simp [List.findIdx_cons, he]
  | cons a A' ih =>
    have ha := hA a (List.mem_cons_self a A')
    rw [List.cons_append, List.findIdx_cons, ha]
    simp [ih fun x hx => hA x (List.mem_cons_of_mem a hx)]

theorem takeWhile_app {α : Type} (p : α → Bool) (A B : List α) (e : α)
    (hA : ∀ a ∈ A, p a = true) (he : p e = false) :
    (A ++ e :: B).takeWhile p = A := by
  induction A with
  | nil => simp [List.takeWhile_cons, he]
  | cons a A' ih =>
    have ha := hA a (List.mem_cons_self a A')
    simp only [List.cons_append, List.takeWhile_cons, ha, if_true]
    rw [ih fun x hx => hA x (List.mem_cons_of_mem a hx)]

/-- In a chain with distinct ids an id determines its node. -/
theorem id_injective {l : List (Elem K V)}
    (hnd : (l.map (fun e => e.id)).Nodup) {e f : Elem K V}
    (he : e ∈ l) (hf : f ∈ l) (hid : e.id = f.id) : e = f := by
  have := List.inj_on_of_nodup_map hnd
  exact this he hf hid

/-- Splitting the chain at the node carrying a given id: the prefix is
exactly what takeWhile and take up to idxOfId deliver. -/
theorem split_at_id (l : List (Elem K V)) (e : Elem K V)
    (hnd : (l.map (fun x => x.id)).Nodup) (he : e ∈ l) :
    ∃ A B, l = A ++ e :: B ∧ (∀ f ∈ A, f.id ≠ e.id) ∧
      (∀ f ∈ B, f.id ≠ e.id) ∧ idxOfId l e.id = A.length ∧
      l.drop A.length = e :: B ∧ l.take A.length = A ∧
      l.takeWhile (fun x => !(x.id == e.id)) = A := by
  rcases List.append_of_mem he with ⟨A, B, rfl⟩
  have hsplit : ((A ++ e :: B).map (fun x => x.id)) =
      A.map (fun x => x.id) ++ (e :: B).map (fun x => x.id) := by simp
  rw [hsplit] at hnd
  have hA : ∀ f ∈ A, f.id ≠ e.id := by
    intro f hf hid
    have h1 : f.id ∈ A.map (fun x => x.id) := List.mem_map_of_mem _ hf
    have h2 : f.id ∈ (e :: B).map (fun x => x.id) := by
      rw [hid]; simp
    exact List.disjoint_left.mp (List.nodup_append.mp hnd).2.2 h1 h2
  have hB : ∀ f ∈ B, f.id ≠ e.id := by
    intro f hf hid
    have hnd2 := (List.nodup_append.mp hnd).2.1
    rw [List.map_cons, List.nodup_cons] at hnd2
    exact hnd2.1 (hid ▸ List.mem_map_of_mem _ hf)
  refine ⟨A, B, rfl, hA, hB, ?_, ?_, ?_, ?_⟩
  · exact findIdx_app _ A B e (fun a ha => by simpa using hA a ha) (by simp)
  · exact List.drop_left A (e :: B)
  · exact List.take_left ..
  · exact takeWhile_app _ A B e (fun a ha => by simpa using hA a ha) (by simp)

/-! ## Shift arithmetic for slots -/

theorem shiftRight_le_shiftRight {a b k : Nat} (h : a ≤ b) :
    a >>> k ≤ b >>> k := by
  simpa [Nat.shiftRight_eq_div_pow] using Nat.div_le_div_right (c := 2 ^ k) h

theorem lt_of_shiftRight_lt {a b k : Nat} (h : a >>> k < b >>> k) : a < b := by
  by_contra hab
  exact absurd (shiftRight_le_shiftRight (Nat.le_of_not_lt hab))
    (Nat.not_le_of_lt h)

theorem shiftRight_lt_pow {h ks : Nat} (hh : h < UPTR) (hks : ks ≤ wordBits) :
    h >>> ks < 2 ^ (wordBits - ks) := by
  rw [Nat.shiftRight_eq_div_pow]
  have h2 : 2 ^ ks > 0 := Nat.pos_pow_of_pos ks (by omega)
  rw [Nat.div_lt_iff_lt_mul h2, ← Nat.pow_add]
  have : wordBits - ks + ks = wordBits := by omega
  rw [this]
  exact hh

/-! ## indexElement lemmas -/

theorem slotDeref_elim (m : Map K V) (s : Nat) (e : Elem K V)
    (h : slotDeref m s = some e) :
    e ∈ m.nodes ∧ m.index.getD s none = some e.id := by
  unfold slotDeref at h
  rcases hs : m.index.getD s none with _ | i
  · rw [hs] at h; cases h
  · rw [hs] at h
    have hmem := List.mem_of_find?_eq_some h
    have hp := List.find?_some h
    simp only [beq_iff_eq] at hp
    exact ⟨hmem, by simp [hp]⟩

/-- Whatever indexElemAux returns came from some slot at or below the
starting one; a return from a nonzero slot passed the hash/liveness
screen, and a return from slot 0 is unconditional. -/
theorem indexElemAux_elim (m : Map K V) (h : Nat) (s : Nat) (e : Elem K V)
    (he : indexElemAux m h s = some e) :
    ∃ t ≤ s, slotDeref m t = some e ∧
      (t = 0 ∨ (e.keyHash ≤ h ∧ e.deleted = false)) := by
  induction s with
  | zero => exact ⟨0, Nat.le_refl 0, by simpa [indexElemAux] using he, Or.inl rfl⟩
  | succ s ih =>
    simp only [indexElemAux] at he
    rcases hs : slotDeref m (s + 1) with _ | f
    · rw [hs] at he
      rcases ih he with ⟨t, ht, hd, hc⟩
      exact ⟨t, Nat.le_succ_of_le ht, hd, hc⟩
    · rw [hs] at he
      dsimp only at he
      by_cases hcond : h < f.keyHash ∨ f.deleted
      · rw [if_pos hcond] at he
        rcases ih he with ⟨t, ht, hd, hc⟩
        exact ⟨t, Nat.le_succ_of_le ht, hd, hc⟩
      · rw [if_neg hcond] at he
        cases he
        push_neg at hcond
        refine ⟨s + 1, Nat.le_refl _, hs, Or.inr ⟨hcond.1, ?_⟩⟩
        simpa using hcond.2

/-- A slot whose node passes the screen is returned directly. -/
theorem indexElemAux_direct (m : Map K V) (h : Nat) (s : Nat) (e : Elem K V)
    (hd : slotDeref m s = some e) (h1 : e.keyHash ≤ h) (h2 : e.deleted = false) :
    indexElemAux m h s = some e := by
  cases s with
  | zero => simpa [indexElemAux] using hd
  | succ s =>
    simp only [indexElemAux, hd]
    rw [if_neg (by simp [h2]; omega)]

theorem indexElement_elim (m : Map K V) (h : Nat) (e : Elem K V)
    (he : indexElement m h = some e) :
    ∃ t ≤ h >>> m.keyshifts, slotDeref m t = some e ∧
      (t = 0 ∨ (e.keyHash ≤ h ∧ e.deleted = false)) :=
  indexElemAux_elim m h _ e he

/-! ## C3: Get on an absent or deleted key -/

theorem getLoop_nomatch (h : Nat) (key : K) (l : List (Elem K V))
    (hn : ∀ e ∈ l, e.key ≠ key) : getLoop h key l = (default, false) := by
  induction l with
  | nil => rfl
  | cons f r ih =>
    simp only [getLoop, if_neg (hn f (List.mem_cons_self f r))]
    by_cases h1 : f.keyHash ≤ h
    · rw [if_pos h1]
      exact ih fun e he => hn e (List.mem_cons_of_mem f he)
    · rw [if_neg h1]

theorem startSuffix_subset (m : Map K V) (o : Option (Elem K V))
    (e : Elem K V) (he : e ∈ startSuffix m o) : e ∈ m.nodes := by
  rcases o with _ | f
  · cases he
  · exact List.mem_of_mem_drop he

/-- C3, amended.  When every node bearing the key is marked deleted (in
particular when the key is wholly absent), Get reports false; and when
no node bears the key at all, the value returned is the zero value of V.
(The original claim's zero-value promise fails when a marked node is
encountered: Get then returns that node's stored value with false, as
the counterexample shows.) -/
theorem C3_amended (m : Map K V) (key : K)
    (hnl : ∀ e ∈ m.nodes, e.key = key → e.deleted = true) :
    (Map.Get m key).1.2 = false ∧
      ((∀ e ∈ m.nodes, e.key ≠ key) → (Map.Get m key).1 = (default, false)) := by
  constructor
  · by_contra hx
    simp only [Bool.not_eq_false] at hx
    rcases getLoop_sound _ _ _ hx with ⟨e, he, hk, hd⟩
    have := hnl e (startSuffix_subset m _ e he) hk
    rw [this] at hd
    cases hd
  · intro hno
    exact getLoop_nomatch _ key _ fun e he =>
      hno e (startSuffix_subset m _ e he)

/-- C3, witness: the hypothesis and conclusion at the concrete marked
state ms2 with key 6. -/
theorem C3_witness :
    (∀ e ∈ ms2.nodes, e.key = 6 → e.deleted = true) ∧
      ((Map.Get ms2 6).1.2 = false ∧
        ((∀ e ∈ ms2.nodes, e.key ≠ 6) → (Map.Get ms2 6).1 = (default, false))) :=
  ⟨by decide, C3_amended ms2 6 (by decide)⟩

end Haxmap
